import Mathlib

/-!
Shallow embedding of the `file_similarity_finder.py` engine of
alepodj/similar_file_finder, together with proofs about the claims of its
specification.

Conventions of the embedding:
* Python strings are Lean `String`s; paths use POSIX separators `/`.
* Python dicts (which iterate in insertion order) are association lists
  `List (key × value)` in insertion order; `dict[k].append(v)` is `insertAppend`.
* File contents are abstracted by a hashing environment `HashEnv`: reading and
  hashing a file either succeeds with its fingerprint (`Except.ok`) or raises an
  I/O error with a message (`Except.error`), which the code of
  `calculate_file_hash` turns into the string sentinel `"ERROR: " ++ msg`.
* Scores are exact rationals `ℚ` (the Python code works with numbers in
  `[0, 100]`; we avoid modelling floating point rounding, which none of the
  claims depends on).
* Functions that Python writes with well-founded recursion are written with an
  explicit fuel argument large enough to never run out, so that every
  definition reduces inside the kernel.
-/

set_option maxRecDepth 40000

namespace SimilarFinder

/-! ### Path helpers (`os.path.basename`, `os.path.splitext`, `str.lower`) -/

/-- The characters after the last `'/'`; helper for `basename`. -/
def afterLastSlash (cs : List Char) : List Char :=
  cs.foldl (fun acc c => if c = '/' then [] else acc ++ [c]) []

/-- `os.path.basename` for POSIX-style paths: the text after the last `'/'`. -/
def basename (p : String) : String :=
  String.mk (afterLastSlash p.toList)

/-- Index of the last `'.'` in a character list, if any. -/
def lastDotIdx (cs : List Char) : Option Nat :=
  match cs.reverse.findIdx? (· = '.') with
  | none => none
  | some k => some (cs.length - 1 - k)

/-- `os.path.splitext` applied to a bare file name (no directory separators):
split at the last dot, provided some earlier character of the name is not a
dot (so `".bashrc"` has no extension, `"a.b.c"` splits as `("a.b", ".c")`). -/
def splitext (name : String) : String × String :=
  let cs := name.toList
  match lastDotIdx cs with
  | none => (name, "")
  | some i =>
      if (cs.take i).any (fun c => c ≠ '.') then
        (String.mk (cs.take i), String.mk (cs.drop i))
      else (name, "")

/-- `str.lower`, restricted (as `Char.toLower` is) to ASCII case folding. -/
def lowerStr (s : String) : String :=
  String.mk (s.toList.map Char.toLower)

/-- The name preparation every similarity method applies to a basename:
`os.path.splitext(name)[0].lower()`. -/
def prepName (name : String) : String :=
  lowerStr (splitext name).1

/-- Python's `str.startswith`. -/
def startsWithStr (pre s : String) : Bool :=
  List.isPrefixOf pre.toList s.toList

/-! ### Levenshtein distance and the `fuzz.ratio` family

The five scoring methods are implemented by the external libraries
`fuzzywuzzy` and `difflib`, whose sources are not part of this repository.
They are modelled from the spec (§4.5).  `levAux` carries a fuel argument;
`lev` supplies fuel `|x| + |y|`, which is enough because every recursive call
decreases the total length, so the fuel-exhausted branch is unreachable. -/

/-- Modelled from the spec: classic edit distance between two strings
(missing from src/: the scoring internals of the `fuzzywuzzy` library).
Fueled Levenshtein distance; structural recursion on the fuel. -/
def levAux : Nat → List Char → List Char → Nat
  | _, [], ys => ys.length
  | _, x :: xs, [] => (x :: xs).length
  | 0, _ :: _, _ :: _ => 0
  | fuel + 1, x :: xs, y :: ys =>
      if x = y then levAux fuel xs ys
      else 1 + min (levAux fuel xs (y :: ys)) (min (levAux fuel (x :: xs) ys) (levAux fuel xs ys))

/-- Levenshtein distance. -/
def lev (x y : List Char) : Nat := levAux (x.length + y.length) x y

/-- Modelled from the spec: `fuzz.ratio` as "100 × (1 − normalized edit
distance)", normalizing by the total length of the two strings (the
normalization `fuzzywuzzy` uses); two empty strings score 100. -/
def ratioChars (x y : List Char) : ℚ :=
  if x.length + y.length = 0 then 100
  else 100 * (((x.length + y.length : Nat) : ℚ) - (lev x y : ℚ)) / ((x.length + y.length : Nat) : ℚ)

/-- `fuzz.ratio` on prepared names. -/
def fuzzRatio (a b : String) : ℚ := ratioChars a.toList b.toList

/-- Modelled from the spec: `fuzz.partial_ratio` scores the shorter string
against its best-scoring window (contiguous substring of the shorter string's
length) of the longer one. -/
def bestWindowScore (s l : List Char) : ℚ :=
  ((List.range (l.length - s.length + 1)).map
    (fun i => ratioChars s ((l.drop i).take s.length))).foldl max 0

/-- `fuzz.partial_ratio` on prepared names. -/
def fuzzPartialRatio (a b : String) : ℚ :=
  let x := a.toList
  let y := b.toList
  if x.length ≤ y.length then bestWindowScore x y else bestWindowScore y x

/-- Whitespace tokenizer (helper; empty tokens are dropped). -/
def splitWsAux : List Char → List Char → List String
  | [], cur => if cur.isEmpty then [] else [String.mk cur.reverse]
  | c :: rest, cur =>
      if c.isWhitespace then
        if cur.isEmpty then splitWsAux rest [] else String.mk cur.reverse :: splitWsAux rest []
      else splitWsAux rest (c :: cur)

/-- Modelled from the spec: tokenization on whitespace used by the token
methods. -/
def tokensOf (s : String) : List String := splitWsAux s.toList []

/-- Join tokens with single spaces. -/
def joinTokens : List String → String
  | [] => ""
  | t :: ts => ts.foldl (fun acc u => acc ++ " " ++ u) t

/-- Alphabetical (lexicographic) sort of a token list. -/
def sortStr (l : List String) : List String := List.insertionSort (· ≤ ·) l

/-- Modelled from the spec: `fuzz.token_sort_ratio` — tokenize, sort the
tokens alphabetically, rejoin, then apply `ratio`. -/
def fuzzTokenSortRatio (a b : String) : ℚ :=
  fuzzRatio (joinTokens (sortStr (tokensOf a))) (joinTokens (sortStr (tokensOf b)))

/-- Modelled from the spec: `fuzz.token_set_ratio` — tokenize, deduplicate,
and combine the sorted common tokens with each side's sorted extra tokens,
taking the best `ratio` among the three combined strings. -/
def fuzzTokenSetRatio (a b : String) : ℚ :=
  let ta := (tokensOf a).dedup
  let tb := (tokensOf b).dedup
  let inter := sortStr (ta.filter (fun t => decide (t ∈ tb)))
  let diffab := sortStr (ta.filter (fun t => !decide (t ∈ tb)))
  let diffba := sortStr (tb.filter (fun t => !decide (t ∈ ta)))
  let s0 := joinTokens inter
  let s1 := joinTokens (inter ++ diffab)
  let s2 := joinTokens (inter ++ diffba)
  max (fuzzRatio s0 s1) (max (fuzzRatio s0 s2) (fuzzRatio s1 s2))

/-! ### `difflib.SequenceMatcher.ratio` -/

/-- Length of the common run at the heads of two character lists. -/
def runLen : List Char → List Char → Nat
  | x :: xs, y :: ys => if x = y then runLen xs ys + 1 else 0
  | _, _ => 0

/-- Modelled from the spec: `difflib`'s longest matching block of `a` and `b`
(no junk): the triple `(i, j, k)` with `a[i:i+k] = b[j:j+k]`, `k` maximal,
and among maximal blocks the one starting earliest in `a`, then earliest in
`b`; `(0, 0, 0)` when there is no match. -/
def findLongestMatch (a b : List Char) : Nat × Nat × Nat :=
  (List.range a.length).foldl (fun best i =>
    (List.range b.length).foldl (fun best j =>
      let k := runLen (a.drop i) (b.drop j)
      if best.2.2 < k then (i, j, k) else best) best) (0, 0, 0)

/-- Total number of matched characters: recursively take the longest matching
block and recurse on the pieces to its left and to its right.  Fueled; each
level strictly shortens `a`, so fuel `|a| + 1` never runs out. -/
def matchTotalAux : Nat → List Char → List Char → Nat
  | 0, _, _ => 0
  | fuel + 1, a, b =>
      let m := findLongestMatch a b
      let i := m.1
      let j := m.2.1
      let k := m.2.2
      if k = 0 then 0
      else matchTotalAux fuel (a.take i) (b.take j) + k +
           matchTotalAux fuel (a.drop (i + k)) (b.drop (j + k))

/-- Total matched characters of the matching blocks. -/
def matchTotal (a b : List Char) : Nat := matchTotalAux (a.length + 1) a b

/-- Modelled from the spec: `difflib.SequenceMatcher(None, a, b).ratio() * 100`
— `2·M/T` scaled to `[0, 100]`, where `M` is the total size of the matching
blocks and `T` the total length; two empty strings score 100. -/
def seqMatcherScore (a b : String) : ℚ :=
  let x := a.toList
  let y := b.toList
  if x.length + y.length = 0 then 100
  else 100 * 2 * (matchTotal x y : ℚ) / ((x.length + y.length : Nat) : ℚ)

/-! ### Method dispatch (`calculate_name_similarity` and the chunk worker) -/

/-- The five-way string dispatch shared by `calculate_name_similarity`,
`calculate_name_similarity_worker` and `process_similarity_chunk`; any
unrecognized method name falls through to `fuzz.ratio`. -/
def methodScore (method : String) (a b : String) : ℚ :=
  if method = "ratio" then fuzzRatio a b
  else if method = "partial_ratio" then fuzzPartialRatio a b
  else if method = "token_sort_ratio" then fuzzTokenSortRatio a b
  else if method = "token_set_ratio" then fuzzTokenSetRatio a b
  else if method = "sequence_matcher" then seqMatcherScore a b
  else fuzzRatio a b

/-- `FileSimilarityFinder.calculate_name_similarity(name1, name2, method)`:
strip extensions, lower-case, and dispatch on the method name. -/
def calculate_name_similarity (name1 name2 : String) (method : String) : ℚ :=
  methodScore method (prepName name1) (prepName name2)

/-! ### Insertion-ordered dictionaries -/

/-- One bucket of an insertion-ordered `dict` of lists. -/
abbrev Bucket := String × List String

/-- `d[k].append(v)` on an insertion-ordered `dict` of lists (a fresh key goes
to the end, as in Python). -/
def insertAppend (l : List Bucket) (k v : String) : List Bucket :=
  match l with
  | [] => [(k, [v])]
  | (k', vs) :: rest =>
      if k' = k then (k', vs ++ [v]) :: rest else (k', vs) :: insertAppend rest k v

/-- Lookup in an insertion-ordered `dict` modelled as an association list. -/
def lookupAssoc (l : List (String × String)) (k : String) : Option String :=
  (l.find? (fun kv => kv.1 = k)).map (·.2)

/-! ### Content hashing -/

/-- The hashing environment: for each path, reading-and-hashing the file either
yields its fingerprint or raises an I/O error with a message.  It abstracts the
file contents together with the (single, per-run) hash algorithm. -/
structure HashEnv where
  hashResult : String → Except String String

/-- `FileSimilarityFinder.calculate_file_hash` (and the module-level
`calculate_file_hash_worker`): stream the file through the hasher; on an
exception return the string `"ERROR: " ++ message` instead of raising. -/
def calculate_file_hash (env : HashEnv) (p : String) : String :=
  match env.hashResult p with
  | .ok h => h
  | .error e => "ERROR: " ++ e

/-- `FileSimilarityFinder.calculate_hashes_parallel`: hash every path, keeping
only non-error results, keyed by path.  The code takes a sequential branch for
fewer than 100 files and a process-pool branch otherwise; both produce the same
path→fingerprint mapping (the completion order of futures only affects the
dict's iteration order, which no caller uses), so one recursion models both. -/
def calculate_hashes_parallel (env : HashEnv) : List String → List (String × String)
  | [] => []
  | p :: rest =>
      let h := calculate_file_hash env p
      if startsWithStr "ERROR:" h then calculate_hashes_parallel env rest
      else (p, h) :: calculate_hashes_parallel env rest

/-! ### Directory enumeration and scanning -/

/-- What a directory entry is on disk.  `Path.is_file()` follows symbolic
links, so the resolved kind of a link matters. -/
inductive EntryKind where
  | regular
  | directory
  | symlinkToFile
  | symlinkToDir
  | brokenSymlink
deriving DecidableEq, Repr

/-- Python `Path.is_file()`: true for a regular file or a symlink that
resolves to a regular file. -/
def isFileEntry : EntryKind → Bool
  | .regular => true
  | .symlinkToFile => true
  | _ => false

/-- Snapshot of what `path.rglob('*')` (recursive) and `path.glob('*')`
(non-recursive) return for the scanned root: every entry with its kind. -/
structure DirListing where
  rglob : List (String × EntryKind)
  glob : List (String × EntryKind)

/-- The state of a `FileSimilarityFinder` instance relevant to scanning and
classification: `self.file_hashes` (fingerprint → paths), `self.file_names`
(filename → paths) and `self.all_files`. -/
structure FinderState where
  file_hashes : List Bucket
  file_names : List Bucket
  all_files : List String
deriving DecidableEq, Repr

/-- `FileSimilarityFinder.__init__`: empty indexes and catalog. -/
def initState : FinderState := ⟨[], [], []⟩

/-- The mapping-construction loop at the end of `scan_directory`: for each
file, append it to the fingerprint bucket of its hash if the bulk hashing
produced one, and (always) to the filename bucket of its basename. -/
def buildIndexes (hash_results : List (String × String)) :
    List String → FinderState → FinderState
  | [], st => st
  | p :: rest, st =>
      let st1 :=
        match lookupAssoc hash_results p with
        | some h => { st with file_hashes := insertAppend st.file_hashes h p }
        | none => st
      buildIndexes hash_results rest
        { st1 with file_names := insertAppend st1.file_names (basename p) p }

/-- The file enumeration of `scan_directory`: `rglob('*')` when recursive,
`glob('*')` otherwise, keeping the entries for which `is_file()` holds. -/
def enumFiles (dl : DirListing) (recursive : Bool) : List String :=
  ((if recursive then dl.rglob else dl.glob).filter (fun e => isFileEntry e.2)).map (·.1)

/-- `FileSimilarityFinder.scan_directory` (happy path: the root exists and no
cancellation fires): enumerate, keep entries for which `is_file()` holds,
replace `self.all_files`, hash all files, and build the two index mappings.
Note that the code replaces `all_files` but appends into
`file_hashes`/`file_names` without clearing them. -/
def scan_directory (env : HashEnv) (dl : DirListing) (recursive : Bool)
    (st : FinderState) : FinderState :=
  if 0 < (enumFiles dl recursive).length then
    buildIndexes (calculate_hashes_parallel env (enumFiles dl recursive))
      (enumFiles dl recursive) { st with all_files := enumFiles dl recursive }
  else { st with all_files := enumFiles dl recursive }

/-! ### The four classifier queries -/

/-- Selection made for one fingerprint bucket by `find_all_duplicates`:
keep the bucket when it has more than one path. -/
def dupSelect (b : Bucket) : Option (List String) :=
  if 1 < b.2.length then some b.2 else none

/-- Selection made for one fingerprint bucket by
`find_identical_content_different_names`: keep the bucket when it has more
than one path and more than one distinct basename. -/
def icdnSelect (b : Bucket) : Option (List String) :=
  if 1 < b.2.length then
    if 1 < (b.2.map basename).dedup.length then some b.2 else none
  else none

/-- Selection made for one fingerprint bucket by `find_duplicates_same_name`:
keep the bucket when it has more than one path, all sharing one basename. -/
def dsnSelect (b : Bucket) : Option (List String) :=
  if 1 < b.2.length then
    if (b.2.map basename).dedup.length = 1 then some b.2 else none
  else none

/-- `find_all_duplicates`: every fingerprint bucket with more than one path. -/
def find_all_duplicates (st : FinderState) : List (List String) :=
  st.file_hashes.filterMap dupSelect

/-- `find_identical_content_different_names`: fingerprint buckets with more
than one path and more than one distinct basename. -/
def find_identical_content_different_names (st : FinderState) : List (List String) :=
  st.file_hashes.filterMap icdnSelect

/-- `find_duplicates_same_name`: fingerprint buckets with more than one path,
all sharing one basename. -/
def find_duplicates_same_name (st : FinderState) : List (List String) :=
  st.file_hashes.filterMap dsnSelect

/-! ### `find_same_names_different_content` -/

/-- The linear scan over `self.file_hashes` looking for the bucket containing
a path (`for h, paths in self.file_hashes.items(): if path in paths: ...`). -/
def cachedHash (st : FinderState) (p : String) : Option String :=
  (st.file_hashes.find? (fun b => p ∈ b.2)).map (·.1)

/-- One member's fingerprint inside `find_same_names_different_content`: the
cached hash if present and truthy, else an on-demand `calculate_file_hash`
(Python's `if not file_hash:` treats both `None` and `""` as missing). -/
def memberHash (env : HashEnv) (st : FinderState) (p : String) : String :=
  match cachedHash st p with
  | some h => if h = "" then calculate_file_hash env p else h
  | none => calculate_file_hash env p

/-- The set `hashes` accumulated for a bucket's members: each member's
fingerprint, kept only when truthy (`if file_hash:`), distinct values. -/
def distinctHashes (env : HashEnv) (st : FinderState) (ps : List String) : List String :=
  ((ps.map (memberHash env st)).filter (fun h => h ≠ "")).dedup

/-- Pass 1: exact-filename buckets with more than one member and more than one
distinct fingerprint. -/
def pass1Groups (env : HashEnv) (st : FinderState) : List (List String) :=
  st.file_names.filterMap (fun b =>
    if 1 < b.2.length then
      if 1 < (distinctHashes env st b.2).length then some b.2 else none
    else none)

/-- The `processed_groups` set after pass 1: every member of every emitted
pass-1 group. -/
def processedPaths (env : HashEnv) (st : FinderState) : List String :=
  (pass1Groups env st).flatten

/-- The paths pass 2 still considers: all catalog files not marked processed. -/
def pass2Pool (env : HashEnv) (st : FinderState) : List String :=
  st.all_files.filter (fun p => ¬ p ∈ processedPaths env st)

/-- Pass 2's `base_name_groups`: the pool grouped by extension-stripped base
name, in encounter order. -/
def baseNameGroups (env : HashEnv) (st : FinderState) : List Bucket :=
  (pass2Pool env st).foldl (fun acc p =>
    insertAppend acc (splitext (basename p)).1 p) []

/-- Pass 2: base-name buckets with more than one member, more than one
distinct extension, and more than one distinct fingerprint. -/
def pass2Groups (env : HashEnv) (st : FinderState) : List (List String) :=
  (baseNameGroups env st).filterMap (fun b =>
    if 1 < b.2.length then
      if 1 < (b.2.map (fun p => (splitext (basename p)).2)).dedup.length then
        if 1 < (distinctHashes env st b.2).length then some b.2 else none
      else none
    else none)

/-- `find_same_names_different_content`: the pass-1 groups followed by the
pass-2 groups. -/
def find_same_names_different_content (env : HashEnv) (st : FinderState) :
    List (List String) :=
  pass1Groups env st ++ pass2Groups env st

/-! ### Similar-name search -/

/-- A scored pair `(file1, file2, similarity)`. -/
abbrev SimPair := String × String × ℚ

/-- `itertools.combinations(files, 2)` / the nested `for i / for j in i+1..`
loops: every ordered pair whose first component occurs strictly earlier. -/
def allPairs : List String → List (String × String)
  | [] => []
  | x :: xs => xs.map (fun y => (x, y)) ++ allPairs xs

/-- `tuple(sorted([file1, file2]))`. -/
def sortKey (f1 f2 : String) : String × String :=
  if f2 < f1 then (f2, f1) else (f1, f2)

/-- Descending-by-score ordering used by `similar_pairs.sort(key=..., reverse=True)`. -/
def pairGE (p q : SimPair) : Prop := q.2.2 ≤ p.2.2

instance : DecidableRel pairGE := fun p q => inferInstanceAs (Decidable (q.2.2 ≤ p.2.2))

instance : IsTotal SimPair pairGE := ⟨fun a b => le_total b.2.2 a.2.2⟩

instance : IsTrans SimPair pairGE := ⟨fun _ _ _ h1 h2 => le_trans h2 h1⟩

/-- The sublist of pairs carrying one given score, used to state stability of
the final sort: a stable sort leaves each score class in its pre-sort order. -/
def scoreClass (q : ℚ) (l : List SimPair) : List SimPair :=
  l.filter (fun p => decide (p.2.2 = q))

/-- Python's stable sort with `key=lambda x: x[2], reverse=True`: a stable
descending insertion sort. -/
def sortDesc (l : List SimPair) : List SimPair := List.insertionSort pairGE l

/-- The body of the sequential double loop of `find_similar_names`: walk the
generated pairs, skip a pair whose key was already processed or whose
basenames coincide, otherwise record the key, score the pair, and keep it when
the score reaches the threshold. -/
def simPairsLoop (th : ℚ) (method : String) :
    List (String × String) → List (String × String) → List SimPair
  | _, [] => []
  | seen, (f1, f2) :: rest =>
      let n1 := basename f1
      let n2 := basename f2
      let key := sortKey f1 f2
      if key ∈ seen ∨ n1 = n2 then simPairsLoop th method seen rest
      else
        let s := calculate_name_similarity n1 n2 method
        if th ≤ s then (f1, f2, s) :: simPairsLoop th method (key :: seen) rest
        else simPairsLoop th method (key :: seen) rest

/-- The sequential branch of `find_similar_names` (taken for catalogs of at
most 100 files): generate, filter, and sort descending by score. -/
def find_similar_names_seq (files : List String) (th : ℚ) (method : String) :
    List SimPair :=
  sortDesc (simPairsLoop th method [] (allPairs files))

/-- The decision made for one generated pair by both `process_similarity_chunk`
and the sequential loop: skip it when the basenames coincide, otherwise score
it (the chunk worker inlines the same five-way dispatch that
`calculate_name_similarity` performs on the two basenames) and keep it when
the score reaches the threshold. -/
def pairSelect (th : ℚ) (method : String) (pr : String × String) : Option SimPair :=
  if basename pr.1 = basename pr.2 then none
  else
    let s := calculate_name_similarity (basename pr.1) (basename pr.2) method
    if th ≤ s then some (pr.1, pr.2, s) else none

/-- `process_similarity_chunk`: score one chunk of pairs, skipping equal
basenames and scores below the threshold. -/
def process_similarity_chunk (pairs : List (String × String)) (method : String)
    (th : ℚ) : List SimPair :=
  pairs.filterMap (pairSelect th method)

/-- `file_pairs[i:i+chunk_size] for i in range(0, len, chunk_size)`.  Fueled;
fuel `|l|` suffices for any chunk size ≥ 1 (each level emits a nonempty
chunk).  Python raises for a chunk size of 0, which therefore never occurs. -/
def toChunksAux (n : Nat) : Nat → List (String × String) → List (List (String × String))
  | 0, _ => []
  | fuel + 1, l => if l.isEmpty then [] else l.take n :: toChunksAux n fuel (l.drop n)

/-- Split the pair list into chunks of `n` pairs. -/
def toChunks (n : Nat) (l : List (String × String)) : List (List (String × String)) :=
  toChunksAux n l.length l

/-- The pair list accumulated by the `as_completed` loop of
`find_similar_names_parallel`: chunk results concatenated in completion order.
`order` is the completion order of the futures — an arbitrary permutation of
the chunk indices chosen by the scheduler, passed here as an explicit
parameter. -/
def parallelAggregated (files : List String) (th : ℚ) (method : String)
    (chunkSize : Nat) (order : List Nat) : List SimPair :=
  ((order.filterMap ((toChunks chunkSize (allPairs files)).get?)).map
    (fun c => process_similarity_chunk c method th)).flatten

/-- `find_similar_names_parallel`: empty for fewer than two files, otherwise
the aggregated chunk results sorted descending by score. -/
def find_similar_names_parallel (files : List String) (th : ℚ) (method : String)
    (chunkSize : Nat) (order : List Nat) : List SimPair :=
  if files.length < 2 then [] else
  sortDesc (parallelAggregated files th method chunkSize order)

/-- `find_similar_names`: the parallel version (with its default chunk size of
1000) for catalogs of more than 100 files, the sequential loop otherwise. -/
def find_similar_names (files : List String) (th : ℚ) (method : String)
    (order : List Nat) : List SimPair :=
  if 100 < files.length then find_similar_names_parallel files th method 1000 order
  else find_similar_names_seq files th method

/-! ### Concrete fixtures used by counterexamples and witnesses -/

/-- An environment where every file reads fine and hashes to `"h"`. -/
def envFlat : HashEnv := ⟨fun _ => .ok "h"⟩

/-- A directory with one regular file (same listing recursively or not). -/
def dlOneFile : DirListing :=
  ⟨[("r/a.txt", EntryKind.regular)], [("r/a.txt", EntryKind.regular)]⟩

/-- A directory whose only entry is a symbolic link to a regular file. -/
def dlOneSymlink : DirListing :=
  ⟨[("r/link.txt", EntryKind.symlinkToFile)], [("r/link.txt", EntryKind.symlinkToFile)]⟩

/-- Environment for the error-sentinel scenario: `c/data.txt` is unreadable,
everything else hashes to `"h1"`. -/
def envErr : HashEnv :=
  ⟨fun p => if p = "c/data.txt" then .error "boom" else .ok "h1"⟩

/-- Finder state after a scan in which `a/data.txt` and `b/data.txt` hashed to
`"h1"` and the bulk hashing of `c/data.txt` failed (so it is absent from
`file_hashes` but present in its filename bucket). -/
def stErr : FinderState :=
  ⟨[("h1", ["a/data.txt", "b/data.txt"])],
   [("data.txt", ["a/data.txt", "b/data.txt", "c/data.txt"])],
   ["a/data.txt", "b/data.txt", "c/data.txt"]⟩

/-- Finder state after scanning two copies of `report.txt` with identical
content: one filename bucket of size two whose members share one fingerprint. -/
def stSameContent : FinderState :=
  ⟨[("h", ["d1/report.txt", "d2/report.txt"])],
   [("report.txt", ["d1/report.txt", "d2/report.txt"])],
   ["d1/report.txt", "d2/report.txt"]⟩

/-- Environment for the error-isolation witness: `r/bad.txt` is unreadable. -/
def envMixed : HashEnv :=
  ⟨fun p => if p = "r/bad.txt" then .error "Permission denied" else .ok "hGood"⟩

/-- The same environment with `r/bad.txt` readable instead. -/
def envMixedFixed : HashEnv :=
  ⟨fun p => if p = "r/bad.txt" then .ok "hBad" else .ok "hGood"⟩

/-- A directory with one readable and one unreadable regular file. -/
def dlMixed : DirListing :=
  ⟨[("r/good.txt", EntryKind.regular), ("r/bad.txt", EntryKind.regular)],
   [("r/good.txt", EntryKind.regular), ("r/bad.txt", EntryKind.regular)]⟩

/-! ## Helper lemmas: symmetry of the scoring methods -/

theorem levAux_comm : ∀ (fuel : Nat) (x y : List Char), levAux fuel x y = levAux fuel y x := by
  intro fuel
  induction fuel with
  | zero => intro x y; cases x <;> cases y <;> simp [levAux]
  | succ f ih =>
    intro x y
    cases x with
    | nil => cases y <;> simp [levAux]
    | cons a as =>
      cases y with
      | nil => simp [levAux]
      | cons b bs =>
        simp only [levAux]
        by_cases h : a = b
        · subst h
          rw [if_pos rfl, if_pos rfl]
          exact ih as bs
        · have h' : ¬ b = a := fun hh => h hh.symm
          rw [if_neg h, if_neg h', ih bs (a :: as), ih (b :: bs) as, ih bs as,
            min_left_comm]

theorem lev_comm (x y : List Char) : lev x y = lev y x := by
  unfold lev
  rw [Nat.add_comm y.length x.length]
  exact levAux_comm _ x y

theorem levAux_le : ∀ (fuel : Nat) (x y : List Char), levAux fuel x y ≤ x.length + y.length := by
  intro fuel
  induction fuel with
  | zero => intro x y; cases x <;> cases y <;> simp [levAux]
  | succ f ih =>
    intro x y
    cases x with
    | nil => simp [levAux]
    | cons a as =>
      cases y with
      | nil => simp [levAux]
      | cons b bs =>
        simp only [levAux]
        by_cases h : a = b
        · rw [if_pos h]
          have := ih as bs
          simp only [List.length_cons]
          omega
        · rw [if_neg h]
          have h1 : min (levAux f as (b :: bs)) (min (levAux f (a :: as) bs) (levAux f as bs)) ≤
              levAux f as bs :=
            le_trans (min_le_right _ _) (min_le_right _ _)
          have := ih as bs
          simp only [List.length_cons]
          omega

theorem lev_le (x y : List Char) : lev x y ≤ x.length + y.length := levAux_le _ x y

theorem ratioChars_comm (x y : List Char) : ratioChars x y = ratioChars y x := by
  unfold ratioChars
  rw [Nat.add_comm x.length y.length, lev_comm]

theorem ratioChars_nonneg (x y : List Char) : 0 ≤ ratioChars x y := by
  unfold ratioChars
  split
  · norm_num
  · apply div_nonneg
    · apply mul_nonneg (by norm_num)
      rw [sub_nonneg]
      exact_mod_cast lev_le x y
    · positivity

theorem fuzzRatio_comm (a b : String) : fuzzRatio a b = fuzzRatio b a :=
  ratioChars_comm _ _

theorem bestWindowScore_of_length_eq {x y : List Char} (h : x.length = y.length) :
    bestWindowScore x y = ratioChars x y := by
  unfold bestWindowScore
  rw [h, Nat.sub_self]
  have h1 : List.range 1 = [0] := rfl
  simp only [h1, List.map_cons, List.map_nil, List.drop_zero, List.take_length,
    List.foldl_cons, List.foldl_nil]
  exact max_eq_right (ratioChars_nonneg x y)

theorem fuzzPartialRatio_comm (a b : String) : fuzzPartialRatio a b = fuzzPartialRatio b a := by
  unfold fuzzPartialRatio
  by_cases h1 : a.toList.length ≤ b.toList.length
  · by_cases h2 : b.toList.length ≤ a.toList.length
    · have hl : a.toList.length = b.toList.length := le_antisymm h1 h2
      rw [if_pos h1, if_pos h2, bestWindowScore_of_length_eq hl,
        bestWindowScore_of_length_eq hl.symm, ratioChars_comm]
    · rw [if_pos h1, if_neg h2]
  · have h2 : b.toList.length ≤ a.toList.length := le_of_not_le h1
    rw [if_neg h1, if_pos h2]

theorem fuzzTokenSortRatio_comm (a b : String) :
    fuzzTokenSortRatio a b = fuzzTokenSortRatio b a :=
  fuzzRatio_comm _ _

theorem sortStr_filter_mem_comm (A B : List String) (hA : A.Nodup) (hB : B.Nodup) :
    sortStr (A.filter (fun t => decide (t ∈ B))) = sortStr (B.filter (fun t => decide (t ∈ A))) := by
  apply List.eq_of_perm_of_sorted ?_ (List.sorted_insertionSort _ _)
    (List.sorted_insertionSort _ _)
  refine ((List.perm_insertionSort _ _).trans ?_).trans (List.perm_insertionSort _ _).symm
  refine (List.perm_ext_iff_of_nodup (hA.filter _) (hB.filter _)).mpr fun x => ?_
  simp only [List.mem_filter, decide_eq_true_eq]
  exact and_comm

theorem fuzzTokenSetRatio_comm (a b : String) :
    fuzzTokenSetRatio a b = fuzzTokenSetRatio b a := by
  have hI := sortStr_filter_mem_comm ((tokensOf b).dedup) ((tokensOf a).dedup)
    (List.nodup_dedup _) (List.nodup_dedup _)
  simp only [fuzzTokenSetRatio]
  rw [hI]
  set I := sortStr ((tokensOf a).dedup.filter (fun t => decide (t ∈ (tokensOf b).dedup)))
  set Dab := sortStr ((tokensOf a).dedup.filter (fun t => !decide (t ∈ (tokensOf b).dedup)))
  set Dba := sortStr ((tokensOf b).dedup.filter (fun t => !decide (t ∈ (tokensOf a).dedup)))
  rw [fuzzRatio_comm (joinTokens (I ++ Dba)) (joinTokens (I ++ Dab)), max_left_comm]

/-! ## Claim C4 -/

/-- C4 (amended): `calculate_name_similarity` is symmetric in its two name
arguments for the methods `ratio`, `partial_ratio`, `token_sort_ratio` and
`token_set_ratio`.  (As claimed for all five methods the statement is false:
`sequence_matcher` is not symmetric, see the counterexample.) -/
theorem C4_name_similarity_symmetric_amended (n1 n2 m : String)
    (hm : m ∈ (["ratio", "partial_ratio", "token_sort_ratio", "token_set_ratio"] : List String)) :
    calculate_name_similarity n1 n2 m = calculate_name_similarity n2 n1 m := by
  unfold calculate_name_similarity methodScore
  simp only [List.mem_cons, List.not_mem_nil, or_false] at hm
  rcases hm with h | h | h | h
  · subst h
    simp only [String.reduceEq, reduceIte]
    exact fuzzRatio_comm _ _
  · subst h
    simp only [String.reduceEq, reduceIte]
    exact fuzzPartialRatio_comm _ _
  · subst h
    simp only [String.reduceEq, reduceIte]
    exact fuzzTokenSortRatio_comm _ _
  · subst h
    simp only [String.reduceEq, reduceIte]
    exact fuzzTokenSetRatio_comm _ _

/-- C4 (counterexample): with the `sequence_matcher` method the score is not
symmetric — `difflib`'s greedy matching-block choice (earliest in the first
string) picks crossing blocks differently once the arguments are swapped. -/
theorem C4_counterexample :
    calculate_name_similarity "ppqqze" "qqeypp" "sequence_matcher" ≠
      calculate_name_similarity "qqeypp" "ppqqze" "sequence_matcher" := by
  with_unfolding_all decide

/-- C4 (witness): the amended symmetry theorem applied at a concrete input. -/
theorem C4_witness :
    ("token_sort_ratio" ∈ (["ratio", "partial_ratio", "token_sort_ratio", "token_set_ratio"] : List String)) ∧
    calculate_name_similarity "Final Report.doc" "Report Final.doc" "token_sort_ratio" =
      calculate_name_similarity "Report Final.doc" "Final Report.doc" "token_sort_ratio" :=
  ⟨by decide, C4_name_similarity_symmetric_amended _ _ _ (by decide)⟩

/-! ## Claim C9 -/

theorem methodScore_unknown {m : String}
    (hm : m ∉ (["ratio", "partial_ratio", "token_sort_ratio", "token_set_ratio",
      "sequence_matcher"] : List String)) (a b : String) :
    methodScore m a b = methodScore "ratio" a b := by
  simp only [List.mem_cons, List.mem_singleton, not_or] at hm
  obtain ⟨h1, h2, h3, h4, h5, -⟩ := hm
  unfold methodScore
  simp only [String.reduceEq, reduceIte]
  rw [if_neg h1, if_neg h2, if_neg h3, if_neg h4, if_neg h5]

/-- C9: an unrecognized method name is not rejected: both
`calculate_name_similarity` and `process_similarity_chunk` fall back to the
`ratio` method and return exactly the `ratio` scores. -/
theorem C9_unknown_method_falls_back (m : String)
    (hm : m ∉ (["ratio", "partial_ratio", "token_sort_ratio", "token_set_ratio",
      "sequence_matcher"] : List String)) :
    (∀ n1 n2 : String,
      calculate_name_similarity n1 n2 m = calculate_name_similarity n1 n2 "ratio") ∧
    (∀ (pairs : List (String × String)) (th : ℚ),
      process_similarity_chunk pairs m th = process_similarity_chunk pairs "ratio" th) := by
  have hfun : ∀ n1 n2 : String,
      calculate_name_similarity n1 n2 m = calculate_name_similarity n1 n2 "ratio" :=
    fun n1 n2 => methodScore_unknown hm _ _
  refine ⟨hfun, fun pairs th => ?_⟩
  unfold process_similarity_chunk pairSelect
  simp only [hfun]

/-- C9 (witness): the fallback theorem applied at the concrete method name
`"levenshtein"`. -/
theorem C9_witness :
    ("levenshtein" ∉ (["ratio", "partial_ratio", "token_sort_ratio", "token_set_ratio",
      "sequence_matcher"] : List String)) ∧
    ((∀ n1 n2 : String, calculate_name_similarity n1 n2 "levenshtein" =
        calculate_name_similarity n1 n2 "ratio") ∧
     (∀ (pairs : List (String × String)) (th : ℚ),
        process_similarity_chunk pairs "levenshtein" th =
          process_similarity_chunk pairs "ratio" th)) :=
  ⟨by decide, C9_unknown_method_falls_back _ (by decide)⟩

/-! ## Claim C1 -/

theorem ite_some_none_eq_some {α : Type} {c : Prop} [Decidable c] {x g : α} :
    ((if c then some x else none) = some g) ↔ c ∧ x = g := by
  split <;> simp_all

theorem ite_ite_some_eq_some {α : Type} {c d : Prop} [Decidable c] [Decidable d] {x g : α} :
    ((if c then (if d then some x else none) else none) = some g) ↔ c ∧ d ∧ x = g := by
  split <;> simp_all [ite_some_none_eq_some]

theorem mem_find_all_duplicates {st : FinderState} {g : List String} :
    g ∈ find_all_duplicates st ↔ ∃ b ∈ st.file_hashes, 1 < b.2.length ∧ b.2 = g := by
  simp only [find_all_duplicates, List.mem_filterMap, dupSelect, ite_some_none_eq_some]

theorem mem_find_identical {st : FinderState} {g : List String} :
    g ∈ find_identical_content_different_names st ↔
      ∃ b ∈ st.file_hashes, 1 < b.2.length ∧ 1 < (b.2.map basename).dedup.length ∧ b.2 = g := by
  simp only [find_identical_content_different_names, List.mem_filterMap, icdnSelect,
    ite_ite_some_eq_some]

theorem mem_find_dup_same_name {st : FinderState} {g : List String} :
    g ∈ find_duplicates_same_name st ↔
      ∃ b ∈ st.file_hashes, 1 < b.2.length ∧ (b.2.map basename).dedup.length = 1 ∧ b.2 = g := by
  simp only [find_duplicates_same_name, List.mem_filterMap, dsnSelect, ite_ite_some_eq_some]

theorem dedup_basename_pos {g : List String} (hg : 1 < g.length) :
    0 < (g.map basename).dedup.length := by
  rcases g with - | ⟨x, t⟩
  · simp at hg
  · have : basename x ∈ (List.map basename (x :: t)).dedup := by
      simp [List.mem_dedup]
    exact List.length_pos.mpr (List.ne_nil_of_mem this)

theorem filterMap_dup_perm : ∀ l : List Bucket,
    (l.filterMap dupSelect).Perm (l.filterMap icdnSelect ++ l.filterMap dsnSelect) := by
  intro l
  induction l with
  | nil => simp
  | cons b t ih =>
    by_cases h1 : 1 < b.2.length
    · by_cases h2 : 1 < (b.2.map basename).dedup.length
      · have hd : dupSelect b = some b.2 := by simp [dupSelect, h1]
        have hi : icdnSelect b = some b.2 := by simp [icdnSelect, h1, h2]
        have hs : dsnSelect b = none := by
          have : ¬ (b.2.map basename).dedup.length = 1 := by omega
          simp [dsnSelect, h1, this]
        simp only [List.filterMap_cons, hd, hi, hs]
        exact ih.cons b.2
      · have hone : (b.2.map basename).dedup.length = 1 := by
          have := dedup_basename_pos h1
          omega
        have hd : dupSelect b = some b.2 := by simp [dupSelect, h1]
        have hi : icdnSelect b = none := by simp [icdnSelect, h1, h2]
        have hs : dsnSelect b = some b.2 := by simp [dsnSelect, h1, hone]
        simp only [List.filterMap_cons, hd, hi, hs]
        exact (ih.cons b.2).trans List.perm_middle.symm
    · have hd : dupSelect b = none := by simp [dupSelect, h1]
      have hi : icdnSelect b = none := by simp [icdnSelect, h1]
      have hs : dsnSelect b = none := by simp [dsnSelect, h1]
      simp only [List.filterMap_cons, hd, hi, hs]
      exact ih

/-- C1: for every finder state, the groups of
`find_identical_content_different_names` and `find_duplicates_same_name`
together are exactly the groups of `find_all_duplicates` (even as a
permutation of lists), no group is in both (a fingerprint bucket with at
least 2 members goes to exactly one of the two depending on whether it has
at least 2 distinct basenames), and every group in all three lists has at
least 2 members. -/
theorem C1_classifier_partition (st : FinderState) :
    (∀ g, g ∈ find_all_duplicates st ↔
      (g ∈ find_identical_content_different_names st ∨ g ∈ find_duplicates_same_name st)) ∧
    (∀ g, ¬ (g ∈ find_identical_content_different_names st ∧
      g ∈ find_duplicates_same_name st)) ∧
    (find_all_duplicates st).Perm
      (find_identical_content_different_names st ++ find_duplicates_same_name st) ∧
    (∀ g, g ∈ find_all_duplicates st → 2 ≤ g.length) ∧
    (∀ g, g ∈ find_identical_content_different_names st → 2 ≤ g.length) ∧
    (∀ g, g ∈ find_duplicates_same_name st → 2 ≤ g.length) := by
  have hsub1 : ∀ g, g ∈ find_identical_content_different_names st → g ∈ find_all_duplicates st := by
    intro g hg
    rw [mem_find_identical] at hg
    obtain ⟨b, hb, h1, -, heq⟩ := hg
    exact mem_find_all_duplicates.mpr ⟨b, hb, h1, heq⟩
  have hsub2 : ∀ g, g ∈ find_duplicates_same_name st → g ∈ find_all_duplicates st := by
    intro g hg
    rw [mem_find_dup_same_name] at hg
    obtain ⟨b, hb, h1, -, heq⟩ := hg
    exact mem_find_all_duplicates.mpr ⟨b, hb, h1, heq⟩
  have hlen : ∀ g, g ∈ find_all_duplicates st → 2 ≤ g.length := by
    intro g hg
    rw [mem_find_all_duplicates] at hg
    obtain ⟨b, -, h1, heq⟩ := hg
    rw [← heq]
    omega
  refine ⟨?_, ?_, filterMap_dup_perm st.file_hashes, hlen,
    fun g hg => hlen g (hsub1 g hg), fun g hg => hlen g (hsub2 g hg)⟩
  · intro g
    constructor
    · intro hg
      rw [mem_find_all_duplicates] at hg
      obtain ⟨b, hb, h1, heq⟩ := hg
      by_cases h2 : 1 < (b.2.map basename).dedup.length
      · exact Or.inl (mem_find_identical.mpr ⟨b, hb, h1, h2, heq⟩)
      · have hpos : 0 < (b.2.map basename).dedup.length := dedup_basename_pos h1
        have hone : (b.2.map basename).dedup.length = 1 := by omega
        exact Or.inr (mem_find_dup_same_name.mpr ⟨b, hb, h1, hone, heq⟩)
    · rintro (hg | hg)
      · exact hsub1 g hg
      · exact hsub2 g hg
  · rintro g ⟨hi, hs⟩
    rw [mem_find_identical] at hi
    rw [mem_find_dup_same_name] at hs
    obtain ⟨b, -, -, h2, heq⟩ := hi
    obtain ⟨b', -, -, h2', heq'⟩ := hs
    rw [heq] at h2
    rw [heq'] at h2'
    omega

/-! ## Claim C2 -/

/-- C2 (amended): a catalog path is excluded from the pass-2 base-name
grouping of `find_same_names_different_content` iff it belongs to an
exact-filename bucket that pass 1 emitted, i.e. one with at least 2 members
and at least 2 distinct fingerprints among them.  Paths of filename buckets
whose members' fingerprints were all identical are not excluded (contrary to
the claim), because the code marks paths as processed only inside the
`len(hashes) > 1` branch. -/
theorem C2_pass2_exclusion_amended (env : HashEnv) (st : FinderState) (p : String) :
    p ∈ pass2Pool env st ↔
      p ∈ st.all_files ∧
      ¬ ∃ b, b ∈ st.file_names ∧ p ∈ b.2 ∧ 1 < b.2.length ∧
        1 < (distinctHashes env st b.2).length := by
  simp only [pass2Pool, List.mem_filter, decide_eq_true_eq, processedPaths, List.mem_flatten,
    pass1Groups, List.mem_filterMap, ite_ite_some_eq_some]
  refine and_congr_right fun _ => not_congr ?_
  constructor
  · rintro ⟨g, ⟨b, hb, h1, h2, heq⟩, hp⟩
    exact ⟨b, hb, heq ▸ hp, h1, h2⟩
  · rintro ⟨b, hb, hp, h1, h2⟩
    exact ⟨b.2, ⟨b, hb, h1, h2, rfl⟩, hp⟩

/-- C2 (counterexample): in a state where `d1/report.txt` and `d2/report.txt`
form an exact-filename bucket of size 2 whose members share one fingerprint
(so pass 1 does not emit it), both paths still enter the pass-2 base-name
grouping — the claim's "excluded even when pass 1 did not emit that bucket"
is false. -/
theorem C2_counterexample :
    ("report.txt", ["d1/report.txt", "d2/report.txt"]) ∈ stSameContent.file_names ∧
    distinctHashes envFlat stSameContent ["d1/report.txt", "d2/report.txt"] = ["h"] ∧
    pass1Groups envFlat stSameContent = [] ∧
    "d1/report.txt" ∈ pass2Pool envFlat stSameContent ∧
    baseNameGroups envFlat stSameContent =
      [("report", ["d1/report.txt", "d2/report.txt"])] := by
  with_unfolding_all decide

/-! ## Claim C10 -/

/-- C10: when a member of a filename bucket has no cached fingerprint and its
on-demand hashing fails, the `"ERROR: ..."` sentinel string enters the
bucket's distinct-fingerprint set exactly like a real fingerprint, so a
bucket whose readable members all share one fingerprint (`"h1"` here) is
still emitted as a different-content group. -/
theorem C10_error_sentinel_counts :
    cachedHash stErr "a/data.txt" = some "h1" ∧
    cachedHash stErr "b/data.txt" = some "h1" ∧
    cachedHash stErr "c/data.txt" = none ∧
    memberHash envErr stErr "c/data.txt" = "ERROR: boom" ∧
    distinctHashes envErr stErr ["a/data.txt", "b/data.txt", "c/data.txt"] =
      ["h1", "ERROR: boom"] ∧
    find_same_names_different_content envErr stErr =
      [["a/data.txt", "b/data.txt", "c/data.txt"]] := by
  with_unfolding_all decide

/-! ## Claim C3 -/

/-- C3: scanning the same unchanged directory twice on the same instance does
not discard the first scan's state: `all_files` is replaced, but
`file_hashes`/`file_names` accumulate, so after the second scan a directory
with one unique file is reported as containing a duplicate group (the file
paired with itself), unlike after a single scan. -/
theorem C3_second_scan_state_carryover :
    find_all_duplicates (scan_directory envFlat dlOneFile true initState) = [] ∧
    find_all_duplicates
      (scan_directory envFlat dlOneFile true
        (scan_directory envFlat dlOneFile true initState)) = [["r/a.txt", "r/a.txt"]] ∧
    (scan_directory envFlat dlOneFile true
        (scan_directory envFlat dlOneFile true initState)).all_files =
      (scan_directory envFlat dlOneFile true initState).all_files := by
  with_unfolding_all decide

/-! ## Claim C7 -/

theorem buildIndexes_all_files (hr : List (String × String)) :
    ∀ (files : List String) (st : FinderState),
      (buildIndexes hr files st).all_files = st.all_files := by
  intro files
  induction files with
  | nil => intro st; rfl
  | cons p rest ih =>
    intro st
    simp only [buildIndexes]
    rw [ih]
    cases lookupAssoc hr p <;> rfl

theorem scan_all_files (env : HashEnv) (dl : DirListing) (recursive : Bool)
    (st : FinderState) :
    (scan_directory env dl recursive st).all_files = enumFiles dl recursive := by
  unfold scan_directory
  split
  · rw [buildIndexes_all_files]
  · rfl

/-- C7 (amended): a path lands in the catalog `all_files` iff its directory
entry is a regular file or a symbolic link resolving to a regular file
(`Path.is_file()` follows symlinks); directories, symlinks to directories and
broken symlinks are excluded — but symlinks to regular files are included,
for both recursive and non-recursive scans. -/
theorem C7_catalog_entries_amended (env : HashEnv) (dl : DirListing) (recursive : Bool)
    (st : FinderState) (p : String) :
    p ∈ (scan_directory env dl recursive st).all_files ↔
      ∃ k, (p, k) ∈ (if recursive then dl.rglob else dl.glob) ∧
        (k = EntryKind.regular ∨ k = EntryKind.symlinkToFile) := by
  rw [scan_all_files]
  simp only [enumFiles, List.mem_map, List.mem_filter]
  constructor
  · rintro ⟨⟨q, k⟩, ⟨hmem, hfile⟩, rfl⟩
    refine ⟨k, hmem, ?_⟩
    cases k <;> simp_all [isFileEntry]
  · rintro ⟨k, hmem, hk⟩
    refine ⟨(p, k), ⟨hmem, ?_⟩, rfl⟩
    rcases hk with rfl | rfl <;> rfl

/-- C7 (counterexample): a directory whose only entry is a symbolic link to a
regular file: the scan places the link path in the catalog although the entry
is not a regular file, so "directories and symbolic links are excluded" is
false for symlinks to regular files. -/
theorem C7_counterexample :
    (scan_directory envFlat dlOneSymlink true initState).all_files = ["r/link.txt"] ∧
    dlOneSymlink.rglob = [("r/link.txt", EntryKind.symlinkToFile)] ∧
    EntryKind.symlinkToFile ≠ EntryKind.regular := by
  with_unfolding_all decide

/-! ## Claim C6 -/

theorem startsWith_error_sentinel (e : String) :
    startsWithStr "ERROR:" ("ERROR: " ++ e) = true := rfl

theorem lookupAssoc_cons_ne {l : List (String × String)} {f h q : String}
    (hne : ¬ f = q) : lookupAssoc ((f, h) :: l) q = lookupAssoc l q := by
  unfold lookupAssoc
  rw [List.find?_cons_of_neg _ (by simpa using hne)]

theorem chp_lookup_error {env : HashEnv} {p e : String}
    (herr : env.hashResult p = .error e) :
    ∀ files : List String, lookupAssoc (calculate_hashes_parallel env files) p = none := by
  intro files
  induction files with
  | nil => rfl
  | cons f rest ih =>
    simp only [calculate_hashes_parallel]
    by_cases hf : f = p
    · subst hf
      rw [show calculate_file_hash env f = "ERROR: " ++ e by
        simp [calculate_file_hash, herr]]
      rw [if_pos (startsWith_error_sentinel e)]
      exact ih
    · split
      · exact ih
      · rw [lookupAssoc_cons_ne hf]
        exact ih

theorem chp_lookup_agree {env env2 : HashEnv} {p : String}
    (hagree : ∀ q, q ≠ p → env2.hashResult q = env.hashResult q) :
    ∀ (files : List String) (q : String), q ≠ p →
      lookupAssoc (calculate_hashes_parallel env2 files) q =
        lookupAssoc (calculate_hashes_parallel env files) q := by
  intro files
  induction files with
  | nil => intro q _; rfl
  | cons f rest ih =>
    intro q hq
    simp only [calculate_hashes_parallel]
    by_cases hf : f = p
    · subst hf
      have hskip : ¬ f = q := fun hh => hq hh.symm
      split
      · split
        · exact ih q hq
        · rw [lookupAssoc_cons_ne hskip]
          exact ih q hq
      · split
        · rw [lookupAssoc_cons_ne hskip]
          exact ih q hq
        · rw [lookupAssoc_cons_ne hskip, lookupAssoc_cons_ne hskip]
          exact ih q hq
    · have henv : calculate_file_hash env2 f = calculate_file_hash env f := by
        simp [calculate_file_hash, hagree f hf]
      rw [henv]
      split
      · exact ih q hq
      · by_cases hfq : f = q
        · subst hfq
          unfold lookupAssoc
          rw [List.find?_cons_of_pos _ (by simp), List.find?_cons_of_pos _ (by simp)]
        · rw [lookupAssoc_cons_ne hfq, lookupAssoc_cons_ne hfq]
          exact ih q hq

theorem insertAppend_mem_values {l : List Bucket} {k v x : String} {b : Bucket}
    (hb : b ∈ insertAppend l k v) (hx : x ∈ b.2) :
    (∃ b' ∈ l, x ∈ b'.2) ∨ x = v := by
  induction l with
  | nil =>
    simp only [insertAppend, List.mem_singleton] at hb
    subst hb
    simp only [List.mem_singleton] at hx
    exact Or.inr hx
  | cons hd t ih =>
    simp only [insertAppend] at hb
    split at hb
    · rcases List.mem_cons.mp hb with heq | hmem
      · rw [heq] at hx
        rcases List.mem_append.mp hx with hx' | hx'
        · exact Or.inl ⟨hd, List.mem_cons_self _ _, hx'⟩
        · simp only [List.mem_singleton] at hx'
          exact Or.inr hx'
      · exact Or.inl ⟨_, List.mem_cons_of_mem _ hmem, hx⟩
    · rcases List.mem_cons.mp hb with heq | hmem
      · refine Or.inl ⟨_, ?_, hx⟩
        rw [heq]
        exact List.mem_cons_self hd t
      · rcases ih hmem with ⟨b2, hb2, hx2⟩ | hv
        · exact Or.inl ⟨b2, List.mem_cons_of_mem _ hb2, hx2⟩
        · exact Or.inr hv

theorem insertAppend_self (l : List Bucket) (k v : String) :
    ∃ b ∈ insertAppend l k v, b.1 = k ∧ v ∈ b.2 := by
  induction l with
  | nil => exact ⟨(k, [v]), by simp [insertAppend]⟩
  | cons hd t ih =>
    simp only [insertAppend]
    split
    · rename_i heq
      exact ⟨(hd.1, hd.2 ++ [v]), List.mem_cons_self _ _, heq, by simp⟩
    · obtain ⟨b, hb, hk, hv⟩ := ih
      exact ⟨b, List.mem_cons_of_mem _ hb, hk, hv⟩

theorem insertAppend_mono {l : List Bucket} {k0 x : String}
    (h : ∃ b ∈ l, b.1 = k0 ∧ x ∈ b.2) (k v : String) :
    ∃ b ∈ insertAppend l k v, b.1 = k0 ∧ x ∈ b.2 := by
  induction l with
  | nil => simp at h
  | cons hd t ih =>
    obtain ⟨b, hb, hk, hx⟩ := h
    simp only [insertAppend]
    split
    · rcases List.mem_cons.mp hb with rfl | hmem
      · exact ⟨(b.1, b.2 ++ [v]), List.mem_cons_self _ _, hk, List.mem_append_left _ hx⟩
      · exact ⟨b, List.mem_cons_of_mem _ hmem, hk, hx⟩
    · rcases List.mem_cons.mp hb with rfl | hmem
      · exact ⟨b, List.mem_cons_self _ _, hk, hx⟩
      · obtain ⟨b', hb', hk', hx'⟩ := ih ⟨b, hmem, hk, hx⟩
        exact ⟨b', List.mem_cons_of_mem _ hb', hk', hx'⟩

theorem buildIndexes_hashes_not_mem {hr : List (String × String)} {x : String}
    (hx : lookupAssoc hr x = none) :
    ∀ (files : List String) (st : FinderState),
      (∀ b ∈ st.file_hashes, x ∉ b.2) →
      ∀ b ∈ (buildIndexes hr files st).file_hashes, x ∉ b.2 := by
  intro files
  induction files with
  | nil => intro st hst; exact hst
  | cons p rest ih =>
    intro st hst
    cases hlook : lookupAssoc hr p with
    | none =>
      simp only [buildIndexes, hlook]
      exact ih _ (fun b hb => hst b hb)
    | some h =>
      simp only [buildIndexes, hlook]
      apply ih
      intro b hb hxb
      rcases insertAppend_mem_values hb hxb with ⟨b2, hb2, hx2⟩ | rfl
      · exact hst b2 hb2 hx2
      · rw [hlook] at hx
        exact Option.noConfusion hx

theorem buildIndexes_names_mem {hr : List (String × String)} {x : String} :
    ∀ (files : List String) (st : FinderState),
      (x ∈ files ∨ ∃ b ∈ st.file_names, b.1 = basename x ∧ x ∈ b.2) →
      ∃ b ∈ (buildIndexes hr files st).file_names, b.1 = basename x ∧ x ∈ b.2 := by
  intro files
  induction files with
  | nil =>
    intro st h
    rcases h with h | h
    · cases h
    · exact h
  | cons p rest ih =>
    intro st h
    simp only [buildIndexes]
    apply ih
    rcases h with h | h
    · rcases List.mem_cons.mp h with rfl | hmem
      · exact Or.inr (insertAppend_self _ _ _)
      · exact Or.inl hmem
    · refine Or.inr ?_
      obtain ⟨b, hb, hk, hx⟩ := h
      apply insertAppend_mono
      cases lookupAssoc hr p <;> exact ⟨b, hb, hk, hx⟩

/-- C6: if reading one file fails during bulk hashing, the call still returns
a mapping (the embedding is total: the per-file exception is the
`"ERROR: ..."` result of `calculate_file_hash`): the errored path gets no
entry in the hash mapping and hence is absent from every fingerprint bucket
built by the scan, it is still appended to the filename bucket of its
basename, and the fingerprints of all other paths are unaffected by the
failure. -/
theorem C6_error_isolation (env : HashEnv) (dl : DirListing) (recursive : Bool)
    (p e : String) (herr : env.hashResult p = .error e)
    (hp : p ∈ enumFiles dl recursive) :
    (∀ b ∈ (scan_directory env dl recursive initState).file_hashes, p ∉ b.2) ∧
    (∃ b ∈ (scan_directory env dl recursive initState).file_names,
      b.1 = basename p ∧ p ∈ b.2) ∧
    (∀ env2 : HashEnv, (∀ q, q ≠ p → env2.hashResult q = env.hashResult q) →
      ∀ (paths : List String) (q : String), q ≠ p →
        lookupAssoc (calculate_hashes_parallel env2 paths) q =
          lookupAssoc (calculate_hashes_parallel env paths) q) := by
  have hpos : 0 < (enumFiles dl recursive).length :=
    List.length_pos.mpr (List.ne_nil_of_mem hp)
  have hscan : scan_directory env dl recursive initState =
      buildIndexes (calculate_hashes_parallel env (enumFiles dl recursive))
        (enumFiles dl recursive) { initState with all_files := enumFiles dl recursive } := by
    unfold scan_directory
    rw [if_pos hpos]
  refine ⟨?_, ?_, fun env2 hagree paths q hq => chp_lookup_agree hagree paths q hq⟩
  · rw [hscan]
    exact buildIndexes_hashes_not_mem (chp_lookup_error herr _) _ _ (by intro b hb; cases hb)
  · rw [hscan]
    exact buildIndexes_names_mem _ _ (Or.inl hp)

/-- C6 (witness): the error-isolation theorem applied to a concrete directory
with one readable and one unreadable file. -/
theorem C6_witness :
    (envMixed.hashResult "r/bad.txt" = Except.error "Permission denied") ∧
    ("r/bad.txt" ∈ enumFiles dlMixed true) ∧
    ((∀ b ∈ (scan_directory envMixed dlMixed true initState).file_hashes,
        "r/bad.txt" ∉ b.2) ∧
     (∃ b ∈ (scan_directory envMixed dlMixed true initState).file_names,
        b.1 = basename "r/bad.txt" ∧ "r/bad.txt" ∈ b.2) ∧
     (∀ env2 : HashEnv,
        (∀ q, q ≠ "r/bad.txt" → env2.hashResult q = envMixed.hashResult q) →
        ∀ (paths : List String) (q : String), q ≠ "r/bad.txt" →
          lookupAssoc (calculate_hashes_parallel env2 paths) q =
            lookupAssoc (calculate_hashes_parallel envMixed paths) q)) :=
  ⟨rfl, by with_unfolding_all decide,
    C6_error_isolation envMixed dlMixed true "r/bad.txt" "Permission denied"
      rfl (by with_unfolding_all decide)⟩

/-! ## Claim C5 -/

theorem pairSelect_eq_some {th : ℚ} {m : String} {a b f1 f2 : String} {s : ℚ} :
    pairSelect th m (a, b) = some (f1, f2, s) ↔
      (a = f1 ∧ b = f2 ∧ basename f1 ≠ basename f2 ∧
        s = calculate_name_similarity (basename f1) (basename f2) m ∧ th ≤ s) := by
  simp only [pairSelect]
  by_cases h1 : basename a = basename b
  · rw [if_pos h1]
    constructor
    · intro h
      exact Option.noConfusion h
    · rintro ⟨rfl, rfl, hne, -, -⟩
      exact absurd h1 hne
  · rw [if_neg h1]
    by_cases h2 : th ≤ calculate_name_similarity (basename a) (basename b) m
    · rw [if_pos h2]
      simp only [Option.some.injEq, Prod.mk.injEq]
      constructor
      · rintro ⟨rfl, rfl, rfl⟩
        exact ⟨rfl, rfl, h1, rfl, h2⟩
      · rintro ⟨rfl, rfl, -, rfl, -⟩
        exact ⟨rfl, rfl, rfl⟩
    · rw [if_neg h2]
      constructor
      · intro h
        exact Option.noConfusion h
      · rintro ⟨rfl, rfl, -, rfl, hle⟩
        exact absurd hle h2

theorem mem_process_similarity_chunk {pairs : List (String × String)} {m : String}
    {th : ℚ} {f1 f2 : String} {s : ℚ} :
    (f1, f2, s) ∈ process_similarity_chunk pairs m th ↔
      ((f1, f2) ∈ pairs ∧ basename f1 ≠ basename f2 ∧
        s = calculate_name_similarity (basename f1) (basename f2) m ∧ th ≤ s) := by
  unfold process_similarity_chunk
  rw [List.mem_filterMap]
  constructor
  · rintro ⟨⟨a, b⟩, hmem, hsel⟩
    obtain ⟨rfl, rfl, h⟩ := pairSelect_eq_some.mp hsel
    exact ⟨hmem, h⟩
  · rintro ⟨hmem, h⟩
    exact ⟨(f1, f2), hmem, pairSelect_eq_some.mpr ⟨rfl, rfl, h⟩⟩

theorem simPairsLoop_eq_filterMap (th : ℚ) (m : String) :
    ∀ (prs : List (String × String)) (seen : List (String × String)),
      (∀ pr ∈ prs, sortKey pr.1 pr.2 ∉ seen) →
      (prs.map (fun pr => sortKey pr.1 pr.2)).Nodup →
      simPairsLoop th m seen prs = prs.filterMap (pairSelect th m) := by
  intro prs
  induction prs with
  | nil => intro seen _ _; rfl
  | cons pr rest ih =>
    rcases pr with ⟨f1, f2⟩
    intro seen hseen hnd
    have hkey : sortKey f1 f2 ∉ seen := hseen _ (List.mem_cons_self _ _)
    simp only [List.map_cons, List.nodup_cons] at hnd
    obtain ⟨hknotin, hndrest⟩ := hnd
    simp only [simPairsLoop]
    by_cases hbn : basename f1 = basename f2
    · rw [if_pos (Or.inr hbn),
        List.filterMap_cons_none (by simp [pairSelect, hbn])]
      exact ih seen (fun pr2 h2 => hseen pr2 (List.mem_cons_of_mem _ h2)) hndrest
    · rw [if_neg (by push_neg; exact ⟨hkey, hbn⟩)]
      have hseen2 : ∀ pr2 ∈ rest, sortKey pr2.1 pr2.2 ∉ sortKey f1 f2 :: seen := by
        intro pr2 h2
        rw [List.mem_cons]
        push_neg
        refine ⟨fun he => hknotin ?_, hseen pr2 (List.mem_cons_of_mem _ h2)⟩
        exact he ▸ List.mem_map_of_mem _ h2
      by_cases hth : th ≤ calculate_name_similarity (basename f1) (basename f2) m
      · rw [if_pos hth,
          List.filterMap_cons_some
            (show pairSelect th m (f1, f2) = some (f1, f2,
              calculate_name_similarity (basename f1) (basename f2) m) from by
                simp [pairSelect, hbn, hth]),
          ih _ hseen2 hndrest]
      · rw [if_neg hth,
          List.filterMap_cons_none (by simp [pairSelect, hbn, hth])]
        exact ih _ hseen2 hndrest

theorem sortKey_eq {a b c d : String} (h : sortKey a b = sortKey c d) :
    (a = c ∧ b = d) ∨ (a = d ∧ b = c) := by
  unfold sortKey at h
  split_ifs at h
  · injection h with h3 h4
    exact Or.inl ⟨h4, h3⟩
  · injection h with h3 h4
    exact Or.inr ⟨h4, h3⟩
  · injection h with h3 h4
    exact Or.inr ⟨h3, h4⟩
  · injection h with h3 h4
    exact Or.inl ⟨h3, h4⟩

theorem mem_allPairs : ∀ {files : List String} {pr : String × String},
    pr ∈ allPairs files → pr.1 ∈ files ∧ pr.2 ∈ files := by
  intro files
  induction files with
  | nil => intro pr h; cases h
  | cons x xs ih =>
    intro pr h
    simp only [allPairs, List.mem_append, List.mem_map] at h
    rcases h with ⟨y, hy, rfl⟩ | h
    · exact ⟨List.mem_cons_self _ _, List.mem_cons_of_mem _ hy⟩
    · obtain ⟨h1, h2⟩ := ih h
      exact ⟨List.mem_cons_of_mem _ h1, List.mem_cons_of_mem _ h2⟩

theorem allPairs_keys_nodup : ∀ {files : List String}, files.Nodup →
    ((allPairs files).map (fun pr => sortKey pr.1 pr.2)).Nodup := by
  intro files
  induction files with
  | nil => intro h; simp [allPairs]
  | cons x xs ih =>
    intro hnd
    obtain ⟨hx, hxs⟩ := List.nodup_cons.mp hnd
    simp only [allPairs, List.map_append, List.map_map]
    rw [List.nodup_append]
    refine ⟨?_, ih hxs, ?_⟩
    · refine List.Nodup.map ?_ hxs
      intro y1 y2 he
      simp only [Function.comp] at he
      rcases sortKey_eq he with ⟨-, h⟩ | ⟨h1, h2⟩
      · exact h
      · exact h2.trans h1
    · intro k hk1 hk2
      simp only [List.mem_map, Function.comp] at hk1 hk2
      obtain ⟨y, hy, rfl⟩ := hk1
      obtain ⟨pr2, hpr2, he⟩ := hk2
      obtain ⟨hc, hd⟩ := mem_allPairs hpr2
      rcases sortKey_eq he with ⟨h1, -⟩ | ⟨-, h2⟩
      · exact hx (h1 ▸ hc)
      · exact hx (h2 ▸ hd)

theorem mem_find_similar_names_seq {files : List String} (hnd : files.Nodup)
    (th : ℚ) (m : String) {x : SimPair} :
    x ∈ find_similar_names_seq files th m ↔
      x ∈ (allPairs files).filterMap (pairSelect th m) := by
  unfold find_similar_names_seq sortDesc
  rw [List.mem_insertionSort,
    simPairsLoop_eq_filterMap th m (allPairs files) [] (by simp) (allPairs_keys_nodup hnd)]

theorem toChunksAux_flatten {n : Nat} (hn : 0 < n) :
    ∀ (fuel : Nat) (l : List (String × String)), l.length ≤ fuel →
      (toChunksAux n fuel l).flatten = l := by
  intro fuel
  induction fuel with
  | zero =>
    intro l hl
    have h0 : l = [] := List.eq_nil_of_length_eq_zero (Nat.le_zero.mp hl)
    subst h0
    rfl
  | succ f ih =>
    intro l hl
    simp only [toChunksAux]
    by_cases he : l.isEmpty
    · rw [if_pos he]
      rw [List.isEmpty_iff] at he
      subst he
      rfl
    · rw [if_neg he, List.flatten_cons, ih (l.drop n) ?_, List.take_append_drop]
      rw [List.isEmpty_iff] at he
      have hlen : l.length ≠ 0 := fun h0 => he (List.eq_nil_of_length_eq_zero h0)
      rw [List.length_drop]
      omega

theorem toChunks_flatten {n : Nat} (hn : 0 < n) (l : List (String × String)) :
    (toChunks n l).flatten = l :=
  toChunksAux_flatten hn _ _ le_rfl

theorem range_filterMap_get? {α : Type} : ∀ l : List α,
    (List.range l.length).filterMap l.get? = l := by
  intro l
  induction l with
  | nil => rfl
  | cons x xs ih =>
    rw [List.length_cons, List.range_succ_eq_map,
      List.filterMap_cons_some (show (x :: xs).get? 0 = some x from rfl),
      List.filterMap_map]
    have hcomp : ((x :: xs).get? ∘ Nat.succ) = xs.get? := by
      funext i
      rfl
    rw [hcomp, ih]

theorem filterMap_get?_perm {α : Type} {chunks : List α} {order : List Nat}
    (h : order.Perm (List.range chunks.length)) :
    (order.filterMap chunks.get?).Perm chunks := by
  have h2 := h.filterMap chunks.get?
  rw [range_filterMap_get?] at h2
  exact h2

theorem allPairs_of_short {files : List String} (h : files.length < 2) :
    allPairs files = [] := by
  rcases files with - | ⟨a, t⟩
  · rfl
  · rcases t with - | ⟨b, t2⟩
    · rfl
    · exact absurd h (by simp)

theorem mem_find_similar_names_parallel {files : List String} {th : ℚ} {m : String}
    {cs : Nat} {order : List Nat} (hcs : 0 < cs)
    (horder : order.Perm (List.range (toChunks cs (allPairs files)).length))
    {x : SimPair} :
    x ∈ find_similar_names_parallel files th m cs order ↔
      x ∈ (allPairs files).filterMap (pairSelect th m) := by
  unfold find_similar_names_parallel
  split
  · rename_i hlt
    rw [allPairs_of_short hlt]
    exact Iff.rfl
  · unfold sortDesc
    rw [List.mem_insertionSort]
    unfold parallelAggregated
    rw [List.mem_flatten]
    constructor
    · rintro ⟨cr, hcr, hx⟩
      simp only [List.mem_map] at hcr
      obtain ⟨c, hc, rfl⟩ := hcr
      have hc2 : c ∈ toChunks cs (allPairs files) :=
        (filterMap_get?_perm horder).mem_iff.mp hc
      unfold process_similarity_chunk at hx
      rw [List.mem_filterMap] at hx ⊢
      obtain ⟨pr, hpr, hsel⟩ := hx
      refine ⟨pr, ?_, hsel⟩
      have hpr2 : pr ∈ (toChunks cs (allPairs files)).flatten :=
        List.mem_flatten.mpr ⟨c, hc2, hpr⟩
      rw [toChunks_flatten hcs] at hpr2
      exact hpr2
    · intro hx
      rw [List.mem_filterMap] at hx
      obtain ⟨pr, hpr, hsel⟩ := hx
      rw [← toChunks_flatten hcs (allPairs files)] at hpr
      obtain ⟨c, hc, hprc⟩ := List.mem_flatten.mp hpr
      refine ⟨process_similarity_chunk c m th,
        List.mem_map_of_mem _ ((filterMap_get?_perm horder).mem_iff.mpr hc), ?_⟩
      unfold process_similarity_chunk
      exact List.mem_filterMap.mpr ⟨pr, hprc, hsel⟩

theorem mem_find_similar_names {files : List String} {th : ℚ} {m : String}
    {order : List Nat} (hnd : files.Nodup)
    (horder : order.Perm (List.range (toChunks 1000 (allPairs files)).length))
    {x : SimPair} :
    x ∈ find_similar_names files th m order ↔
      x ∈ (allPairs files).filterMap (pairSelect th m) := by
  unfold find_similar_names
  split
  · exact mem_find_similar_names_parallel (by norm_num) horder
  · exact mem_find_similar_names_seq hnd th m

/-- C5: for a catalog without duplicate paths and any completion order of the
chunk futures, a generated pair of distinct paths appears (with some score)
in the result of `find_similar_names` iff its basenames differ and its
similarity score reaches the threshold (inclusive); every returned triple
carries exactly the pair's `calculate_name_similarity` score, which is at
least the threshold, for a generated pair of distinct basenames; and the
chunk worker `process_similarity_chunk` retains a pair under exactly the
same inclusive-threshold, different-basename condition. -/
theorem C5_similar_pair_iff (files : List String) (th : ℚ) (m : String)
    (order : List Nat) (hnd : files.Nodup)
    (horder : order.Perm (List.range (toChunks 1000 (allPairs files)).length)) :
    (∀ f1 f2, (f1, f2) ∈ allPairs files →
      ((∃ s, (f1, f2, s) ∈ find_similar_names files th m order) ↔
        (basename f1 ≠ basename f2 ∧
          th ≤ calculate_name_similarity (basename f1) (basename f2) m))) ∧
    (∀ f1 f2 s, (f1, f2, s) ∈ find_similar_names files th m order →
      ((f1, f2) ∈ allPairs files ∧ basename f1 ≠ basename f2 ∧
        s = calculate_name_similarity (basename f1) (basename f2) m ∧ th ≤ s)) ∧
    (∀ (pairs : List (String × String)) (f1 f2 : String),
      ((∃ s, (f1, f2, s) ∈ process_similarity_chunk pairs m th) ↔
        ((f1, f2) ∈ pairs ∧ basename f1 ≠ basename f2 ∧
          th ≤ calculate_name_similarity (basename f1) (basename f2) m))) := by
  refine ⟨?_, ?_, ?_⟩
  · intro f1 f2 hpr
    constructor
    · rintro ⟨s, hs⟩
      have hmem := (mem_find_similar_names hnd horder).mp hs
      rw [List.mem_filterMap] at hmem
      obtain ⟨⟨a, b⟩, -, hsel⟩ := hmem
      obtain ⟨rfl, rfl, hne, hseq, hle⟩ := pairSelect_eq_some.mp hsel
      exact ⟨hne, hseq ▸ hle⟩
    · rintro ⟨hne, hle⟩
      refine ⟨calculate_name_similarity (basename f1) (basename f2) m,
        (mem_find_similar_names hnd horder).mpr ?_⟩
      rw [List.mem_filterMap]
      exact ⟨(f1, f2), hpr, pairSelect_eq_some.mpr ⟨rfl, rfl, hne, rfl, hle⟩⟩
  · intro f1 f2 s hs
    have hmem := (mem_find_similar_names hnd horder).mp hs
    rw [List.mem_filterMap] at hmem
    obtain ⟨⟨a, b⟩, hab, hsel⟩ := hmem
    obtain ⟨rfl, rfl, hne, hseq, hle⟩ := pairSelect_eq_some.mp hsel
    exact ⟨hab, hne, hseq, hle⟩
  · intro pairs f1 f2
    constructor
    · rintro ⟨s, hs⟩
      obtain ⟨hmem, hne, hseq, hle⟩ := mem_process_similarity_chunk.mp hs
      exact ⟨hmem, hne, hseq ▸ hle⟩
    · rintro ⟨hmem, hne, hle⟩
      exact ⟨_, mem_process_similarity_chunk.mpr ⟨hmem, hne, rfl, hle⟩⟩

/-- C5 (witness): the membership theorem applied to a concrete two-file
catalog. -/
theorem C5_witness :
    (["d/ab.txt", "d/ba.txt"] : List String).Nodup ∧
    ([0] : List Nat).Perm
      (List.range (toChunks 1000 (allPairs ["d/ab.txt", "d/ba.txt"])).length) ∧
    ((∀ f1 f2, (f1, f2) ∈ allPairs ["d/ab.txt", "d/ba.txt"] →
      ((∃ s, (f1, f2, s) ∈ find_similar_names ["d/ab.txt", "d/ba.txt"] 30 "ratio" [0]) ↔
        (basename f1 ≠ basename f2 ∧
          30 ≤ calculate_name_similarity (basename f1) (basename f2) "ratio"))) ∧
    (∀ f1 f2 s, (f1, f2, s) ∈ find_similar_names ["d/ab.txt", "d/ba.txt"] 30 "ratio" [0] →
      ((f1, f2) ∈ allPairs ["d/ab.txt", "d/ba.txt"] ∧ basename f1 ≠ basename f2 ∧
        s = calculate_name_similarity (basename f1) (basename f2) "ratio" ∧ (30 : ℚ) ≤ s)) ∧
    (∀ (pairs : List (String × String)) (f1 f2 : String),
      ((∃ s, (f1, f2, s) ∈ process_similarity_chunk pairs "ratio" 30) ↔
        ((f1, f2) ∈ pairs ∧ basename f1 ≠ basename f2 ∧
          (30 : ℚ) ≤ calculate_name_similarity (basename f1) (basename f2) "ratio")))) :=
  ⟨by decide,
   by rw [show List.range (toChunks 1000 (allPairs ["d/ab.txt", "d/ba.txt"])).length = [0]
        from by with_unfolding_all decide],
   C5_similar_pair_iff ["d/ab.txt", "d/ba.txt"] 30 "ratio" [0] (by decide)
     (by rw [show List.range (toChunks 1000 (allPairs ["d/ab.txt", "d/ba.txt"])).length = [0]
           from by with_unfolding_all decide])⟩

/-! ## Claim C8 -/

theorem orderedInsert_scoreClass_eq (x : SimPair) {q : ℚ} (hx : x.2.2 = q) :
    ∀ l : List SimPair,
      scoreClass q (List.orderedInsert pairGE x l) = x :: scoreClass q l := by
  intro l
  induction l with
  | nil => simp [List.orderedInsert, scoreClass, hx]
  | cons y ys ih =>
    simp only [List.orderedInsert]
    by_cases hle : pairGE x y
    · rw [if_pos hle]
      simp [scoreClass, List.filter_cons, hx]
    · rw [if_neg hle]
      have hxy : x.2.2 < y.2.2 := lt_of_not_le hle
      have hyq : ¬ (y.2.2 = q) := fun hh => (ne_of_lt hxy) (hx.trans hh.symm)
      simp only [scoreClass, List.filter_cons, decide_eq_true_eq] at ih ⊢
      rw [if_neg (by simpa using hyq), if_neg (by simpa using hyq)]
      exact ih

theorem orderedInsert_scoreClass_ne (x : SimPair) {q : ℚ} (hx : ¬ x.2.2 = q) :
    ∀ l : List SimPair,
      scoreClass q (List.orderedInsert pairGE x l) = scoreClass q l := by
  intro l
  induction l with
  | nil => simp [List.orderedInsert, scoreClass, hx]
  | cons y ys ih =>
    simp only [List.orderedInsert]
    by_cases hle : pairGE x y
    · rw [if_pos hle]
      simp [scoreClass, List.filter_cons, hx]
    · rw [if_neg hle]
      simp only [scoreClass, List.filter_cons] at ih ⊢
      by_cases hy : y.2.2 = q
      · rw [if_pos (by simpa using hy), if_pos (by simpa using hy), ih]
      · rw [if_neg (by simpa using hy), if_neg (by simpa using hy), ih]

theorem sortDesc_scoreClass (l : List SimPair) (q : ℚ) :
    scoreClass q (sortDesc l) = scoreClass q l := by
  induction l with
  | nil => rfl
  | cons x xs ih =>
    simp only [sortDesc, List.insertionSort]
    by_cases hx : x.2.2 = q
    · rw [orderedInsert_scoreClass_eq x hx]
      simp only [sortDesc] at ih
      rw [ih]
      simp [scoreClass, List.filter_cons, hx]
    · rw [orderedInsert_scoreClass_ne x hx]
      simp only [sortDesc] at ih
      rw [ih]
      simp [scoreClass, List.filter_cons, hx]

theorem sortDesc_sorted (l : List SimPair) : List.Sorted pairGE (sortDesc l) :=
  List.sorted_insertionSort pairGE l

theorem parallelAggregated_of_short {files : List String} {th : ℚ} {m : String}
    {cs : Nat} {order : List Nat} (h : files.length < 2) :
    parallelAggregated files th m cs order = [] := by
  unfold parallelAggregated toChunks
  rw [allPairs_of_short h]
  have h2 : order.filterMap
      ((toChunksAux cs (List.length ([] : List (String × String))) []).get?) = [] :=
    List.filterMap_eq_nil_iff.mpr fun i _ => rfl
  rw [h2]
  rfl

/-- C8 (amended): the lists returned by `find_similar_names_seq` and
`find_similar_names_parallel` are sorted by similarity score in descending
order, and the sort is stable: each score class of the sequential result
keeps the pair-generation order, while each score class of the parallel
result keeps the order of the aggregated chunk results — which is the chunk
*completion* order, not necessarily the generation order (see the
counterexample). -/
theorem C8_sorted_and_stable_amended (files : List String) (th : ℚ) (m : String)
    (cs : Nat) (order : List Nat) :
    List.Sorted pairGE (find_similar_names_seq files th m) ∧
    List.Sorted pairGE (find_similar_names_parallel files th m cs order) ∧
    (∀ q : ℚ, scoreClass q (find_similar_names_seq files th m) =
      scoreClass q (simPairsLoop th m [] (allPairs files))) ∧
    (∀ q : ℚ, scoreClass q (find_similar_names_parallel files th m cs order) =
      scoreClass q (parallelAggregated files th m cs order)) := by
  refine ⟨sortDesc_sorted _, ?_, fun q => sortDesc_scoreClass _ q, ?_⟩
  · unfold find_similar_names_parallel
    split
    · exact List.sorted_nil
    · exact sortDesc_sorted _
  · intro q
    unfold find_similar_names_parallel
    split
    · rename_i hlt
      rw [parallelAggregated_of_short hlt]
    · exact sortDesc_scoreClass _ q

/-- C8 (counterexample): with three equal-score pairs split into single-pair
chunks and the completion order `[1, 0, 2]`, `find_similar_names_parallel`
returns the tied pairs in completion order, not first-generated order, so the
claimed "ties keep first-generated order" fails for the parallel path. -/
theorem C8_counterexample :
    allPairs ["aa", "ab", "ac"] = [("aa", "ab"), ("aa", "ac"), ("ab", "ac")] ∧
    ([1, 0, 2] : List Nat).Perm
      (List.range (toChunks 1 (allPairs ["aa", "ab", "ac"])).length) ∧
    find_similar_names_parallel ["aa", "ab", "ac"] 0 "ratio" 1 [1, 0, 2] =
      [("aa", "ac", 75), ("aa", "ab", 75), ("ab", "ac", 75)] ∧
    find_similar_names_parallel ["aa", "ab", "ac"] 0 "ratio" 1 [1, 0, 2] ≠
      [("aa", "ab", 75), ("aa", "ac", 75), ("ab", "ac", 75)] := by
  with_unfolding_all decide

end SimilarFinder
